import Mathlib

/-!
Verification of the `xutex` low-level primitives:
* `OnceLock<T>` (src/oncelock.rs): a `no_std` single-assignment cell with a
  three-state atomic status word (`EMPTY`/`INITIALIZING`/`INITIALIZED`),
  a CAS-guarded slow path and a busy-wait loop for losers.
* the pool allocator (src/allocator.rs): a bounded queue
  (`ArrayQueue<Box<QueueStructure>>`, capacity `QUEUE_POOL_CAPACITY = 128`)
  stored behind a process-wide `OnceLock` static, pre-filled on first use.

The development has two layers:
1. a sequential, functional embedding of `get` / `get_or_init` / `Drop`
   and of `allocate_queue` / `deallocate_queue` / `get_queue_allocator`;
2. an interleaving transition system for `get_or_init`, in which every
   atomic access of the Rust code (status load, CAS, slot write, status
   store, slot read) is one step, used for the concurrency claims.
-/

namespace Xutex

/-- The three values of the `OnceLock` status word:
`EMPTY = 0`, `INITIALIZING = 1`, `INITIALIZED = 2` (src/oncelock.rs:16-18). -/
inductive Status where
  | empty
  | initializing
  | initialized
deriving DecidableEq, Repr

/-- Sequential embedding of `OnceLock<T>` (src/oncelock.rs:20-23).
The `MaybeUninit<T>` slot is modelled as an `Option T`: `none` is the
uninitialized slot, `some v` the slot after the winner's write. -/
structure OnceLockS (T : Type) where
  state : Status
  value : Option T
deriving DecidableEq, Repr

namespace OnceLockS

/-- `OnceLock::new` (src/oncelock.rs:29-34): status `EMPTY`, slot uninitialized. -/
def new (T : Type) : OnceLockS T := ⟨Status.empty, none⟩

/-- `OnceLock::get` (src/oncelock.rs:36-42): acquire-load the status; if
`INITIALIZED`, read the slot (`assume_init_ref`), else return `None`. -/
def get (c : OnceLockS T) : Option T :=
  if c.state = Status.initialized then c.value else none

/-- `OnceLock::get_or_init` (src/oncelock.rs:44-74), run sequentially to
completion by a single caller. Returns `some (result, cell after the call,
whether the factory was invoked)`.  `none` models the two ways a sequential
run cannot return: the status is `INITIALIZING` with nobody else to finish
(the busy-wait loop at lines 66-70 spins forever), or the slot is read while
uninitialized (`assume_init_ref` on an unwritten `MaybeUninit`). -/
def getOrInit (c : OnceLockS T) (f : Unit → T) : Option (T × OnceLockS T × Bool) :=
  match c.get with
  | some v => some (v, c, false)
  | none =>
    match c.state with
    | Status.empty =>
        -- CAS EMPTY -> INITIALIZING succeeds: run the factory, write the
        -- slot, release-store INITIALIZED, return a reference to the slot.
        let v := f ()
        some (v, ⟨Status.initialized, some v⟩, true)
    | Status.initializing =>
        -- CAS fails; the spin loop never observes INITIALIZED.
        none
    | Status.initialized =>
        -- CAS fails; the spin loop exits at once and the slot is read.
        match c.value with
        | some v => some (v, c, false)
        | none => none

/-- Sequence of `get_or_init` calls on one cell; returns the final cell and
the total number of factory invocations, or `none` if some call cannot
return. -/
def runCalls (c : OnceLockS T) : List (Unit → T) → Option (OnceLockS T × Nat)
  | [] => some (c, 0)
  | f :: fs =>
    match c.getOrInit f with
    | none => none
    | some (_, c', b) =>
      match c'.runCalls fs with
      | none => none
      | some (c'', n) => some (c'', (if b then 1 else 0) + n)

/-- `impl Drop for OnceLock` (src/oncelock.rs:83-91): if the status word is
`INITIALIZED`, read and finalize the slot (`assume_init_drop`); otherwise do
nothing. Returns the value that was finalized, if any. -/
def dropFinalized (c : OnceLockS T) : Option T :=
  if c.state = Status.initialized then c.value else none

end OnceLockS

/-! ## Pool allocator (src/allocator.rs) -/

/-- Instances of the opaque recyclable type `Box<QueueStructure>`, tagged
with ghost provenance: `prefilled k` is the `k`-th instance constructed by
the pre-fill loop inside `get_queue_allocator` (src/allocator.rs:17-19);
`fallback` is an instance constructed by the empty-pool fallback
`Box::new(QueueStructure::new())` in `allocate_queue` (src/allocator.rs:28).
Both are built by the same zero-argument constructor `QueueStructure::new`;
the tag records only where the construction happened. -/
inductive Inst where
  | prefilled (k : Nat)
  | fallback
deriving DecidableEq, Repr

/-- `ArrayQueue::push` on a bounded FIFO queue of capacity `cap`
(crossbeam's `ArrayQueue`, as used at src/allocator.rs:18,33): append at
the back when not full (`true` = `Ok`), otherwise leave the queue unchanged
(`false` = `Err`, the element is handed back and dropped by the caller).
The queue is a list whose head is the oldest element. -/
def queuePush (cap : Nat) (q : List Inst) (x : Inst) : List Inst × Bool :=
  if q.length < cap then (q ++ [x], true) else (q, false)

/-- `ArrayQueue::pop` (src/allocator.rs:27): remove and return the oldest
element, or `none` when the queue is empty. -/
def queuePop (q : List Inst) : Option (Inst × List Inst) :=
  match q with
  | [] => none
  | x :: rest => some (x, rest)

/-- `QUEUE_POOL_CAPACITY` (src/allocator.rs:10). -/
def QUEUE_POOL_CAPACITY : Nat := 128

/-- The factory closure passed to `get_or_init` in `get_queue_allocator`
(src/allocator.rs:15-21): build an `ArrayQueue` of capacity `cap` and push
`cap` freshly constructed instances, ignoring each push's result. -/
def prefillQueue (cap : Nat) : List Inst :=
  (List.range cap).foldl (fun q k => (queuePush cap q (Inst.prefilled k)).1) []

/-- `allocate_queue` (src/allocator.rs:24-29): pop from the pool; on an
empty pool construct a brand-new instance. Returns the instance, the pool
after the call, and whether the fallback construction ran. -/
def allocate_queue (q : List Inst) : Inst × List Inst × Bool :=
  match queuePop q with
  | some (x, rest) => (x, rest, false)
  | none => (Inst.fallback, [], true)

/-- `deallocate_queue` (src/allocator.rs:31-34): push the instance back,
discarding the result; on `Err` (pool full) the instance is dropped.
Returns the pool after the call and whether the instance was queued
(`false` = it was finalized instead). -/
def deallocate_queue (cap : Nat) (q : List Inst) (x : Inst) : List Inst × Bool :=
  queuePush cap q x

/-- The `QUEUE_ALLOCATOR` static (src/allocator.rs:12) at process start:
a fresh `OnceLock`. -/
def QUEUE_ALLOCATOR_start : OnceLockS (List Inst) := OnceLockS.new _

/-- `get_queue_allocator` (src/allocator.rs:14-22) acting on the state of
the `QUEUE_ALLOCATOR` static: `get_or_init` with the pre-fill factory. -/
def get_queue_allocator (st : OnceLockS (List Inst)) :
    Option (List Inst × OnceLockS (List Inst) × Bool) :=
  st.getOrInit (fun _ => prefillQueue QUEUE_POOL_CAPACITY)

/-- One caller-visible pool operation. -/
inductive Op where
  | alloc
  | dealloc (x : Inst)

/-- Run a sequence of `allocate_queue` / `deallocate_queue` calls on a pool
of capacity `cap`, tracking the pool contents. -/
def runOps (cap : Nat) (q : List Inst) : List Op → List Inst
  | [] => q
  | Op.alloc :: ops => runOps cap (allocate_queue q).2.1 ops
  | Op.dealloc x :: ops => runOps cap (deallocate_queue cap q x).1 ops

/-- `n` consecutive `allocate_queue` calls: the list of
(instance, fallback-construction ran) results, and the final pool. -/
def runAllocs (q : List Inst) : Nat → List (Inst × Bool) × List Inst
  | 0 => ([], q)
  | n + 1 =>
    let r := allocate_queue q
    let rest := runAllocs r.2.1 n
    ((r.1, r.2.2) :: rest.1, rest.2)

/-! ## Interleaving model of concurrent `get_or_init`

`N` callers run `get_or_init` on one shared cell; caller `i`'s factory
returns `f i`. Every atomic access of src/oncelock.rs:44-74 — the
acquire load of the status in `get` (line 37), the slot read of `get`
(line 38), the CAS (lines 53-56), the factory call (line 58), the slot
write (line 60), the release store of `INITIALIZED` (line 62), the slot
reads of the two return paths (lines 63, 71) and the loads of the spin
loop (line 68) — is one transition; steps of distinct callers interleave
arbitrarily. Release/acquire on the single status word makes this
sequentially-consistent interleaving a faithful abstraction: a reader that
acquires `INITIALIZED` also observes the slot write released before it. -/

/-- Program counter of one `get_or_init` caller. -/
inductive PC where
  | start               -- about to acquire-load the status (fast path, line 37)
  | fastRead            -- observed INITIALIZED in the fast path; about to read the slot (line 38)
  | tryCas              -- about to CAS EMPTY -> INITIALIZING (lines 53-56)
  | invoke              -- won the CAS; about to call the factory (line 58)
  | write (v : Nat)     -- factory returned `v`; about to write the slot (line 60)
  | publish             -- wrote the slot; about to release-store INITIALIZED (line 62)
  | winRead             -- about to read the slot for the winner's return (line 63)
  | spin                -- lost the CAS; about to load the status in the spin loop (line 68)
  | spinRead            -- spin loop observed INITIALIZED; about to read the slot (line 71)
  | done (v : Nat)      -- returned `v`
deriving DecidableEq, Repr

/-- Shared state plus all callers' local state. `invoked` lists, most
recent first, the callers whose factory has run. -/
structure Sys where
  status : Status
  slot : Option Nat
  callers : List PC
  invoked : List Nat
deriving DecidableEq, Repr

/-- `N` callers at `start` on a fresh cell. -/
def sysInit (n : Nat) : Sys :=
  ⟨Status.empty, none, List.replicate n PC.start, []⟩

/-- One atomic step of one caller; `f i` is the value caller `i`'s factory
produces. Slot reads require a written slot (`slot = some v`): the claim
that uninitialized reads cannot occur is the theorem that in every
reachable state a caller about to read has `slot ≠ none`. -/
inductive SysStep (f : Nat → Nat) : Sys → Sys → Prop where
  | fastHit (s : Sys) (i : Nat) :
      s.callers[i]? = some PC.start → s.status = Status.initialized →
      SysStep f s { s with callers := s.callers.set i PC.fastRead }
  | fastMiss (s : Sys) (i : Nat) :
      s.callers[i]? = some PC.start → s.status ≠ Status.initialized →
      SysStep f s { s with callers := s.callers.set i PC.tryCas }
  | fastReadStep (s : Sys) (i : Nat) (v : Nat) :
      s.callers[i]? = some PC.fastRead → s.slot = some v →
      SysStep f s { s with callers := s.callers.set i (PC.done v) }
  | casWin (s : Sys) (i : Nat) :
      s.callers[i]? = some PC.tryCas → s.status = Status.empty →
      SysStep f s { s with status := Status.initializing,
                           callers := s.callers.set i PC.invoke }
  | casLose (s : Sys) (i : Nat) :
      s.callers[i]? = some PC.tryCas → s.status ≠ Status.empty →
      SysStep f s { s with callers := s.callers.set i PC.spin }
  | invokeStep (s : Sys) (i : Nat) :
      s.callers[i]? = some PC.invoke →
      SysStep f s { s with callers := s.callers.set i (PC.write (f i)),
                           invoked := i :: s.invoked }
  | writeStep (s : Sys) (i : Nat) (v : Nat) :
      s.callers[i]? = some (PC.write v) →
      SysStep f s { s with slot := some v, callers := s.callers.set i PC.publish }
  | publishStep (s : Sys) (i : Nat) :
      s.callers[i]? = some PC.publish →
      SysStep f s { s with status := Status.initialized,
                           callers := s.callers.set i PC.winRead }
  | winReadStep (s : Sys) (i : Nat) (v : Nat) :
      s.callers[i]? = some PC.winRead → s.slot = some v →
      SysStep f s { s with callers := s.callers.set i (PC.done v) }
  | spinMiss (s : Sys) (i : Nat) :
      s.callers[i]? = some PC.spin → s.status ≠ Status.initialized →
      SysStep f s { s with callers := s.callers.set i PC.spin }
  | spinHit (s : Sys) (i : Nat) :
      s.callers[i]? = some PC.spin → s.status = Status.initialized →
      SysStep f s { s with callers := s.callers.set i PC.spinRead }
  | spinReadStep (s : Sys) (i : Nat) (v : Nat) :
      s.callers[i]? = some PC.spinRead → s.slot = some v →
      SysStep f s { s with callers := s.callers.set i (PC.done v) }

/-- States reachable from `s₀` by interleaved steps. -/
inductive SysReach (f : Nat → Nat) (s₀ : Sys) : Sys → Prop where
  | refl : SysReach f s₀ s₀
  | tail {s s' : Sys} : SysReach f s₀ s → SysStep f s s' → SysReach f s₀ s'

/-- The inductive invariant of the protocol, by status-word value:
* `EMPTY`: slot unwritten, no factory has run, everyone is in the fast
  path or about to CAS;
* `INITIALIZING`: there is a unique winner `w`, at one of the three winner
  stages with the matching slot/invocation bookkeeping, and everyone else
  waits (fast path, CAS, or spin loop);
* `INITIALIZED`: some winner `w` ran its factory (and nobody else's ran),
  the slot holds `f w`, and every finished caller returned `f w`. -/
def SysInv (f : Nat → Nat) (s : Sys) : Prop :=
  (s.status = Status.empty →
      s.slot = none ∧ s.invoked = [] ∧
      ∀ (i : Nat) (p : PC), s.callers[i]? = some p →
        p = PC.start ∨ p = PC.tryCas) ∧
  (s.status = Status.initializing →
      ∃ w : Nat,
        ((s.callers[w]? = some PC.invoke ∧ s.invoked = [] ∧ s.slot = none) ∨
         (s.callers[w]? = some (PC.write (f w)) ∧ s.invoked = [w] ∧ s.slot = none) ∨
         (s.callers[w]? = some PC.publish ∧ s.invoked = [w] ∧ s.slot = some (f w))) ∧
        ∀ (j : Nat) (p : PC), j ≠ w → s.callers[j]? = some p →
          p = PC.start ∨ p = PC.tryCas ∨ p = PC.spin) ∧
  (s.status = Status.initialized →
      ∃ w : Nat, w < s.callers.length ∧ s.invoked = [w] ∧ s.slot = some (f w) ∧
        ∀ (j : Nat) (p : PC), s.callers[j]? = some p →
          p = PC.start ∨ p = PC.tryCas ∨ p = PC.spin ∨ p = PC.fastRead ∨
            p = PC.spinRead ∨ p = PC.winRead ∨ p = PC.done (f w))

/-- Two lookups of the same caller agree. -/
theorem lookup_unique {l : List PC} {i : Nat} {p q : PC}
    (h1 : l[i]? = some p) (h2 : l[i]? = some q) : p = q := by
  rw [h1] at h2; exact Option.some.inj h2

theorem set_lookup_self {l : List PC} {i : Nat} {p : PC}
    (h : l[i]? = some p) (q : PC) : (l.set i q)[i]? = some q :=
  List.getElem?_set_self (List.getElem?_eq_some.mp h).1

theorem set_lookup_ne (l : List PC) {i j : Nat} (h : i ≠ j) (q : PC) :
    (l.set i q)[j]? = l[j]? :=
  List.getElem?_set_ne h

/-- The invariant holds in the initial state. -/
theorem sysInv_init (f : Nat → Nat) (n : Nat) : SysInv f (sysInit n) := by
  refine ⟨fun _ => ⟨rfl, rfl, fun i p hp => ?_⟩, fun h => ?_, fun h => ?_⟩
  · left
    simp only [sysInit] at hp
    rw [List.getElem?_replicate] at hp
    split at hp
    · exact (Option.some.inj hp).symm
    · exact nomatch hp
  · simp [sysInit] at h
  · simp [sysInit] at h

/-- The invariant is preserved by every atomic step of every caller. -/
theorem sysInv_step {f : Nat → Nat} {s s' : Sys}
    (hinv : SysInv f s) (hstep : SysStep f s s') : SysInv f s' := by
  obtain ⟨hE, hIng, hInd⟩ := hinv
  cases hstep with
  | fastHit i hi hst =>
      obtain ⟨w, hwlen, hinvk, hslot, hall⟩ := hInd hst
      refine ⟨fun h => (nomatch hst.symm.trans h), fun h => (nomatch hst.symm.trans h),
        fun _ => ⟨w, by simpa using hwlen, hinvk, hslot, fun j p hj => ?_⟩⟩
      by_cases hij : i = j
      · subst hij
        rw [lookup_unique hj (set_lookup_self hi PC.fastRead)]
        simp
      · exact hall j p ((set_lookup_ne _ hij _) ▸ hj)
  | fastMiss i hi hst =>
      refine ⟨fun h => ?_, fun h => ?_, fun h => absurd h hst⟩
      · obtain ⟨hslot, hinvk, hall⟩ := hE h
        refine ⟨hslot, hinvk, fun j p hj => ?_⟩
        by_cases hij : i = j
        · subst hij
          rw [lookup_unique hj (set_lookup_self hi PC.tryCas)]
          simp
        · exact hall j p ((set_lookup_ne _ hij _) ▸ hj)
      · obtain ⟨w, hwin, hwait⟩ := hIng h
        have hiw : i ≠ w := by
          intro he; subst he
          rcases hwin with ⟨hw, -, -⟩ | ⟨hw, -, -⟩ | ⟨hw, -, -⟩ <;>
            exact nomatch lookup_unique hi hw
        refine ⟨w, ?_, fun j p hjw hj => ?_⟩
        · rcases hwin with ⟨hw, h1, h2⟩ | ⟨hw, h1, h2⟩ | ⟨hw, h1, h2⟩
          · exact Or.inl ⟨(set_lookup_ne _ hiw _).trans hw, h1, h2⟩
          · exact Or.inr (Or.inl ⟨(set_lookup_ne _ hiw _).trans hw, h1, h2⟩)
          · exact Or.inr (Or.inr ⟨(set_lookup_ne _ hiw _).trans hw, h1, h2⟩)
        · by_cases hij : i = j
          · subst hij
            rw [lookup_unique hj (set_lookup_self hi PC.tryCas)]
            simp
          · exact hwait j p hjw ((set_lookup_ne _ hij _) ▸ hj)
  | fastReadStep i v hi hv =>
      refine ⟨fun h => ?_, fun h => ?_, fun h => ?_⟩
      · obtain ⟨-, -, hall⟩ := hE h
        rcases hall i _ hi with h' | h' <;> nomatch h'
      · obtain ⟨w, hwin, hwait⟩ := hIng h
        by_cases hiw : i = w
        · subst hiw
          rcases hwin with ⟨hw, -, -⟩ | ⟨hw, -, -⟩ | ⟨hw, -, -⟩ <;>
            exact nomatch lookup_unique hi hw
        · rcases hwait i _ hiw hi with h' | h' | h' <;> nomatch h'
      · obtain ⟨w, hwlen, hinvk, hslot, hall⟩ := hInd h
        have hv' : v = f w := by rw [hv] at hslot; exact Option.some.inj hslot
        subst hv'
        refine ⟨w, by simpa using hwlen, hinvk, hslot, fun j p hj => ?_⟩
        by_cases hij : i = j
        · subst hij
          rw [lookup_unique hj (set_lookup_self hi (PC.done (f w)))]
          simp
        · exact hall j p ((set_lookup_ne _ hij _) ▸ hj)
  | casWin i hi hst =>
      obtain ⟨hslot, hinvk, hall⟩ := hE hst
      refine ⟨fun h => (nomatch h), fun _ => ?_, fun h => nomatch h⟩
      refine ⟨i, Or.inl ⟨set_lookup_self hi PC.invoke, hinvk, hslot⟩, fun j p hji hj => ?_⟩
      rcases hall j p ((set_lookup_ne _ (fun he => hji he.symm) _) ▸ hj) with h' | h'
      · exact Or.inl h'
      · exact Or.inr (Or.inl h')
  | casLose i hi hst =>
      refine ⟨fun h => absurd h hst, fun h => ?_, fun h => ?_⟩
      · obtain ⟨w, hwin, hwait⟩ := hIng h
        have hiw : i ≠ w := by
          intro he; subst he
          rcases hwin with ⟨hw, -, -⟩ | ⟨hw, -, -⟩ | ⟨hw, -, -⟩ <;>
            exact nomatch lookup_unique hi hw
        refine ⟨w, ?_, fun j p hjw hj => ?_⟩
        · rcases hwin with ⟨hw, h1, h2⟩ | ⟨hw, h1, h2⟩ | ⟨hw, h1, h2⟩
          · exact Or.inl ⟨(set_lookup_ne _ hiw _).trans hw, h1, h2⟩
          · exact Or.inr (Or.inl ⟨(set_lookup_ne _ hiw _).trans hw, h1, h2⟩)
          · exact Or.inr (Or.inr ⟨(set_lookup_ne _ hiw _).trans hw, h1, h2⟩)
        · by_cases hij : i = j
          · subst hij
            rw [lookup_unique hj (set_lookup_self hi PC.spin)]
            simp
          · exact hwait j p hjw ((set_lookup_ne _ hij _) ▸ hj)
      · obtain ⟨w, hwlen, hinvk, hslot, hall⟩ := hInd h
        refine ⟨w, by simpa using hwlen, hinvk, hslot, fun j p hj => ?_⟩
        by_cases hij : i = j
        · subst hij
          rw [lookup_unique hj (set_lookup_self hi PC.spin)]
          simp
        · exact hall j p ((set_lookup_ne _ hij _) ▸ hj)
  | invokeStep i hi =>
      refine ⟨fun h => ?_, fun h => ?_, fun h => ?_⟩
      · obtain ⟨-, -, hall⟩ := hE h
        rcases hall i _ hi with h' | h' <;> nomatch h'
      · obtain ⟨w, hwin, hwait⟩ := hIng h
        by_cases hiw : i = w
        · subst hiw
          rcases hwin with ⟨hw, h1, h2⟩ | ⟨hw, -, -⟩ | ⟨hw, -, -⟩
          · refine ⟨i, Or.inr (Or.inl ⟨set_lookup_self hi (PC.write (f i)), ?_, h2⟩),
              fun j p hji hj =>
                hwait j p hji ((set_lookup_ne _ (fun he => hji he.symm) _) ▸ hj)⟩
            rw [h1]
          · exact nomatch lookup_unique hi hw
          · exact nomatch lookup_unique hi hw
        · rcases hwait i _ hiw hi with h' | h' | h' <;> nomatch h'
      · obtain ⟨w, -, -, -, hall⟩ := hInd h
        rcases hall i _ hi with h' | h' | h' | h' | h' | h' | h' <;> nomatch h'
  | writeStep i v hi =>
      refine ⟨fun h => ?_, fun h => ?_, fun h => ?_⟩
      · obtain ⟨-, -, hall⟩ := hE h
        rcases hall i _ hi with h' | h' <;> nomatch h'
      · obtain ⟨w, hwin, hwait⟩ := hIng h
        by_cases hiw : i = w
        · subst hiw
          rcases hwin with ⟨hw, -, -⟩ | ⟨hw, h1, h2⟩ | ⟨hw, -, -⟩
          · exact nomatch lookup_unique hi hw
          · have hv : v = f i := PC.write.inj (lookup_unique hi hw)
            subst hv
            exact ⟨i, Or.inr (Or.inr ⟨set_lookup_self hi PC.publish, h1, rfl⟩),
              fun j p hji hj =>
                hwait j p hji ((set_lookup_ne _ (fun he => hji he.symm) _) ▸ hj)⟩
          · exact nomatch lookup_unique hi hw
        · rcases hwait i _ hiw hi with h' | h' | h' <;> nomatch h'
      · obtain ⟨w, -, -, -, hall⟩ := hInd h
        rcases hall i _ hi with h' | h' | h' | h' | h' | h' | h' <;> nomatch h'
  | publishStep i hi =>
      refine ⟨fun h => (nomatch h), fun h => (nomatch h), fun _ => ?_⟩
      cases hs : s.status with
      | empty =>
          obtain ⟨-, -, hall⟩ := hE hs
          rcases hall i _ hi with h' | h' <;> nomatch h'
      | initialized =>
          obtain ⟨w, -, -, -, hall⟩ := hInd hs
          rcases hall i _ hi with h' | h' | h' | h' | h' | h' | h' <;> nomatch h'
      | initializing =>
          obtain ⟨w, hwin, hwait⟩ := hIng hs
          by_cases hiw : i = w
          · subst hiw
            rcases hwin with ⟨hw, -, -⟩ | ⟨hw, -, -⟩ | ⟨hw, h1, h2⟩
            · exact nomatch lookup_unique hi hw
            · exact nomatch lookup_unique hi hw
            · refine ⟨i, ?_, h1, h2, fun j p hj => ?_⟩
              · simpa using (List.getElem?_eq_some.mp hi).1
              · by_cases hij : i = j
                · subst hij
                  rw [lookup_unique hj (set_lookup_self hi PC.winRead)]
                  simp
                · rcases hwait j p (fun he => hij he.symm)
                    ((set_lookup_ne _ hij _) ▸ hj) with h' | h' | h' <;> simp [h']
          · rcases hwait i _ hiw hi with h' | h' | h' <;> nomatch h'
  | winReadStep i v hi hv =>
      refine ⟨fun h => ?_, fun h => ?_, fun h => ?_⟩
      · obtain ⟨-, -, hall⟩ := hE h
        rcases hall i _ hi with h' | h' <;> nomatch h'
      · obtain ⟨w, hwin, hwait⟩ := hIng h
        by_cases hiw : i = w
        · subst hiw
          rcases hwin with ⟨hw, -, -⟩ | ⟨hw, -, -⟩ | ⟨hw, -, -⟩ <;>
            exact nomatch lookup_unique hi hw
        · rcases hwait i _ hiw hi with h' | h' | h' <;> nomatch h'
      · obtain ⟨w, hwlen, hinvk, hslot, hall⟩ := hInd h
        have hv' : v = f w := by rw [hv] at hslot; exact Option.some.inj hslot
        subst hv'
        refine ⟨w, by simpa using hwlen, hinvk, hslot, fun j p hj => ?_⟩
        by_cases hij : i = j
        · subst hij
          rw [lookup_unique hj (set_lookup_self hi (PC.done (f w)))]
          simp
        · exact hall j p ((set_lookup_ne _ hij _) ▸ hj)
  | spinMiss i hi hst =>
      refine ⟨fun h => ?_, fun h => ?_, fun h => absurd h hst⟩
      · obtain ⟨-, -, hall⟩ := hE h
        rcases hall i _ hi with h' | h' <;> nomatch h'
      · obtain ⟨w, hwin, hwait⟩ := hIng h
        have hiw : i ≠ w := by
          intro he; subst he
          rcases hwin with ⟨hw, -, -⟩ | ⟨hw, -, -⟩ | ⟨hw, -, -⟩ <;>
            exact nomatch lookup_unique hi hw
        refine ⟨w, ?_, fun j p hjw hj => ?_⟩
        · rcases hwin with ⟨hw, h1, h2⟩ | ⟨hw, h1, h2⟩ | ⟨hw, h1, h2⟩
          · exact Or.inl ⟨(set_lookup_ne _ hiw _).trans hw, h1, h2⟩
          · exact Or.inr (Or.inl ⟨(set_lookup_ne _ hiw _).trans hw, h1, h2⟩)
          · exact Or.inr (Or.inr ⟨(set_lookup_ne _ hiw _).trans hw, h1, h2⟩)
        · by_cases hij : i = j
          · subst hij
            rw [lookup_unique hj (set_lookup_self hi PC.spin)]
            simp
          · exact hwait j p hjw ((set_lookup_ne _ hij _) ▸ hj)
  | spinHit i hi hst =>
      obtain ⟨w, hwlen, hinvk, hslot, hall⟩ := hInd hst
      refine ⟨fun h => (nomatch hst.symm.trans h), fun h => (nomatch hst.symm.trans h),
        fun _ => ⟨w, by simpa using hwlen, hinvk, hslot, fun j p hj => ?_⟩⟩
      by_cases hij : i = j
      · subst hij
        rw [lookup_unique hj (set_lookup_self hi PC.spinRead)]
        simp
      · exact hall j p ((set_lookup_ne _ hij _) ▸ hj)
  | spinReadStep i v hi hv =>
      refine ⟨fun h => ?_, fun h => ?_, fun h => ?_⟩
      · obtain ⟨-, -, hall⟩ := hE h
        rcases hall i _ hi with h' | h' <;> nomatch h'
      · obtain ⟨w, hwin, hwait⟩ := hIng h
        by_cases hiw : i = w
        · subst hiw
          rcases hwin with ⟨hw, -, -⟩ | ⟨hw, -, -⟩ | ⟨hw, -, -⟩ <;>
            exact nomatch lookup_unique hi hw
        · rcases hwait i _ hiw hi with h' | h' | h' <;> nomatch h'
      · obtain ⟨w, hwlen, hinvk, hslot, hall⟩ := hInd h
        have hv' : v = f w := by rw [hv] at hslot; exact Option.some.inj hslot
        subst hv'
        refine ⟨w, by simpa using hwlen, hinvk, hslot, fun j p hj => ?_⟩
        by_cases hij : i = j
        · subst hij
          rw [lookup_unique hj (set_lookup_self hi (PC.done (f w)))]
          simp
        · exact hall j p ((set_lookup_ne _ hij _) ▸ hj)

/-- Every reachable state satisfies the invariant. -/
theorem sysReach_inv {f : Nat → Nat} {n : Nat} {s : Sys}
    (hr : SysReach f (sysInit n) s) : SysInv f s := by
  induction hr with
  | refl => exact sysInv_init f n
  | tail _ hstep ih => exact sysInv_step ih hstep

/-- Steps do not change the number of callers. -/
theorem sysStep_length {f : Nat → Nat} {s s' : Sys} (h : SysStep f s s') :
    s'.callers.length = s.callers.length := by
  cases h <;> simp

/-- A reachable state has the initial number of callers. -/
theorem sysReach_length {f : Nat → Nat} {n : Nat} {s : Sys}
    (hr : SysReach f (sysInit n) s) : s.callers.length = n := by
  induction hr with
  | refl => simp [sysInit]
  | tail _ hstep ih => rw [sysStep_length hstep, ih]

/-! ## Sequential facts about `get_or_init` -/

/-- On a cell already holding a value, `get_or_init` hits the fast path:
it returns the stored value, leaves the cell unchanged and does not run
the factory. -/
theorem getOrInit_of_stored {T : Type} {c : OnceLockS T} {v : T}
    (hst : c.state = Status.initialized) (hv : c.value = some v)
    (f : Unit → T) : c.getOrInit f = some (v, c, false) := by
  simp [OnceLockS.getOrInit, OnceLockS.get, hst, hv]

/-- On a cell already holding a value, any number of further calls leave
the cell unchanged and run no factory at all. -/
theorem runCalls_of_stored {T : Type} {c : OnceLockS T} {v : T}
    (hst : c.state = Status.initialized) (hv : c.value = some v)
    (fs : List (Unit → T)) : c.runCalls fs = some (c, 0) := by
  induction fs with
  | nil => rfl
  | cons f fs ih => simp [OnceLockS.runCalls, getOrInit_of_stored hst hv, ih]

/-- On a fresh cell a sequential `get_or_init` runs the factory once,
stores its result and moves the status to `INITIALIZED`. -/
theorem getOrInit_fresh {T : Type} (f : Unit → T) :
    (OnceLockS.new T).getOrInit f =
      some (f (), ⟨Status.initialized, some (f ())⟩, true) := rfl

/-! ## Facts about the pool queue -/

theorem allocate_length_le (q : List Inst) :
    (allocate_queue q).2.1.length ≤ q.length := by
  cases q <;> simp [allocate_queue, queuePop]

theorem deallocate_length_le {cap : Nat} (q : List Inst) (x : Inst)
    (h : q.length ≤ cap) : (deallocate_queue cap q x).1.length ≤ cap := by
  by_cases hlt : q.length < cap
  · simp only [deallocate_queue, queuePush, if_pos hlt]
    simpa using hlt
  · simpa [deallocate_queue, queuePush, hlt] using h

/-- The capacity bound is an invariant of arbitrary operation sequences. -/
theorem runOps_length_le (cap : Nat) (ops : List Op) (q : List Inst)
    (h : q.length ≤ cap) : (runOps cap q ops).length ≤ cap := by
  induction ops generalizing q with
  | nil => exact h
  | cons op ops ih =>
      cases op with
      | alloc => exact ih _ (le_trans (allocate_length_le q) h)
      | dealloc x => exact ih _ (deallocate_length_le q x h)

/-- Every push of the pre-fill loop succeeds, so the factory's queue is
exactly the `cap` pre-fill instances in construction order. -/
theorem prefill_fold (cap : Nat) :
    ∀ n, n ≤ cap →
      (List.range n).foldl (fun q k => (queuePush cap q (Inst.prefilled k)).1) [] =
        (List.range n).map Inst.prefilled := by
  intro n
  induction n with
  | zero => intro _; rfl
  | succ m ih =>
      intro h
      rw [List.range_succ, List.foldl_append, List.map_append,
        ih (Nat.le_of_succ_le h)]
      simp [queuePush, Nat.lt_of_succ_le h]

theorem prefillQueue_eq (cap : Nat) :
    prefillQueue cap = (List.range cap).map Inst.prefilled :=
  prefill_fold cap cap le_rfl

theorem prefillQueue_length (cap : Nat) : (prefillQueue cap).length = cap := by
  rw [prefillQueue_eq]; simp

/-- Draining a pool of `n` instances: the first `n` allocations pop the
pooled instances in order without fresh construction, and the next one
takes the fallback path. -/
theorem runAllocs_drain (q : List Inst) :
    runAllocs q (q.length + 1) =
      (q.map (fun x => (x, false)) ++ [(Inst.fallback, true)], []) := by
  induction q with
  | nil => rfl
  | cons x rest ih =>
      show ((x, false) :: (runAllocs rest (rest.length + 1)).1,
          (runAllocs rest (rest.length + 1)).2) = _
      rw [ih]
      rfl

/-! ## The claims -/

/-- Claim C1: for `n ≥ 1` concurrent callers of `get_or_init` on one
fresh cell, each with its own factory (`f i` for caller `i`), in any
interleaved execution in which all `n` calls have returned, exactly one
factory was invoked, exactly once, and all `n` calls returned that single
factory's result. -/
theorem getOrInit_exactly_once (f : Nat → Nat) (n : Nat) (hn : 0 < n) (s : Sys)
    (hr : SysReach f (sysInit n) s)
    (hdone : ∀ i, i < n → ∃ v, s.callers[i]? = some (PC.done v)) :
    ∃ w, w < n ∧ s.invoked = [w] ∧
      ∀ i, i < n → s.callers[i]? = some (PC.done (f w)) := by
  have hlen : s.callers.length = n := sysReach_length hr
  obtain ⟨hE, hIng, hInd⟩ := sysReach_inv hr
  obtain ⟨v0, h0⟩ := hdone 0 hn
  cases hs : s.status with
  | empty =>
      obtain ⟨-, -, hall⟩ := hE hs
      rcases hall 0 _ h0 with h' | h' <;> nomatch h'
  | initializing =>
      obtain ⟨w, hwin, hwait⟩ := hIng hs
      by_cases h0w : (0 : Nat) = w
      · subst h0w
        rcases hwin with ⟨hw, -, -⟩ | ⟨hw, -, -⟩ | ⟨hw, -, -⟩ <;>
          exact nomatch lookup_unique h0 hw
      · rcases hwait 0 _ h0w h0 with h' | h' | h' <;> nomatch h'
  | initialized =>
      obtain ⟨w, hwlen, hinvk, hslot, hall⟩ := hInd hs
      refine ⟨w, hlen ▸ hwlen, hinvk, fun i hi => ?_⟩
      obtain ⟨v, hv⟩ := hdone i hi
      rcases hall i _ hv with h' | h' | h' | h' | h' | h' | h'
      · exact nomatch h'
      · exact nomatch h'
      · exact nomatch h'
      · exact nomatch h'
      · exact nomatch h'
      · exact nomatch h'
      · rw [h'] at hv; exact hv

/-- Witness for `getOrInit_exactly_once`: a complete two-caller
interleaving (`f = id`) in which caller 0 wins the CAS, runs its factory
and publishes, while caller 1 loses the CAS, snoozes once and then reads
the published value. -/
theorem getOrInit_exactly_once_witness :
    ∃ w, w < 2 ∧
      (⟨Status.initialized, some 0, [PC.done 0, PC.done 0], [0]⟩ : Sys).invoked = [w] ∧
      ∀ i, i < 2 →
        (⟨Status.initialized, some 0, [PC.done 0, PC.done 0], [0]⟩ : Sys).callers[i]? =
          some (PC.done ((fun k : Nat => k) w)) := by
  refine getOrInit_exactly_once (fun k : Nat => k) 2 (by decide)
    ⟨Status.initialized, some 0, [PC.done 0, PC.done 0], [0]⟩ ?_ ?_
  · have r1 : SysReach (fun k : Nat => k) (sysInit 2)
        ⟨Status.empty, none, [PC.tryCas, PC.start], []⟩ :=
      SysReach.tail SysReach.refl (SysStep.fastMiss (sysInit 2) 0 (by decide) (by decide))
    have r2 : SysReach (fun k : Nat => k) (sysInit 2)
        ⟨Status.empty, none, [PC.tryCas, PC.tryCas], []⟩ :=
      SysReach.tail r1 (SysStep.fastMiss _ 1 (by decide) (by decide))
    have r3 : SysReach (fun k : Nat => k) (sysInit 2)
        ⟨Status.initializing, none, [PC.invoke, PC.tryCas], []⟩ :=
      SysReach.tail r2 (SysStep.casWin _ 0 (by decide) (by decide))
    have r4 : SysReach (fun k : Nat => k) (sysInit 2)
        ⟨Status.initializing, none, [PC.invoke, PC.spin], []⟩ :=
      SysReach.tail r3 (SysStep.casLose _ 1 (by decide) (by decide))
    have r5 : SysReach (fun k : Nat => k) (sysInit 2)
        ⟨Status.initializing, none, [PC.write 0, PC.spin], [0]⟩ :=
      SysReach.tail r4 (SysStep.invokeStep _ 0 (by decide))
    have r6 : SysReach (fun k : Nat => k) (sysInit 2)
        ⟨Status.initializing, some 0, [PC.publish, PC.spin], [0]⟩ :=
      SysReach.tail r5 (SysStep.writeStep _ 0 0 (by decide))
    have r7 : SysReach (fun k : Nat => k) (sysInit 2)
        ⟨Status.initializing, some 0, [PC.publish, PC.spin], [0]⟩ :=
      SysReach.tail r6 (SysStep.spinMiss _ 1 (by decide) (by decide))
    have r8 : SysReach (fun k : Nat => k) (sysInit 2)
        ⟨Status.initialized, some 0, [PC.winRead, PC.spin], [0]⟩ :=
      SysReach.tail r7 (SysStep.publishStep _ 0 (by decide))
    have r9 : SysReach (fun k : Nat => k) (sysInit 2)
        ⟨Status.initialized, some 0, [PC.done 0, PC.spin], [0]⟩ :=
      SysReach.tail r8 (SysStep.winReadStep _ 0 0 (by decide) (by decide))
    have r10 : SysReach (fun k : Nat => k) (sysInit 2)
        ⟨Status.initialized, some 0, [PC.done 0, PC.spinRead], [0]⟩ :=
      SysReach.tail r9 (SysStep.spinHit _ 1 (by decide) (by decide))
    exact SysReach.tail r10 (SysStep.spinReadStep _ 1 0 (by decide) (by decide))
  · intro i hi
    interval_cases i
    · exact ⟨0, rfl⟩
    · exact ⟨0, rfl⟩

/-- Claim C2: once a cell is `INITIALIZED` holding `v`, every further
`get_or_init` returns `v` and does not invoke its factory, and the total
factory invocation count over the cell's lifetime stays 1. -/
theorem getOrInit_no_reinvoke {T : Type} (c : OnceLockS T) (v : T)
    (hst : c.state = Status.initialized) (hv : c.value = some v) :
    (∀ f : Unit → T, c.getOrInit f = some (v, c, false)) ∧
    (∀ fs : List (Unit → T), c.runCalls fs = some (c, 0)) ∧
    (∀ (f0 : Unit → T) (fs : List (Unit → T)),
      (OnceLockS.new T).runCalls (f0 :: fs) =
        some (⟨Status.initialized, some (f0 ())⟩, 1)) := by
  refine ⟨getOrInit_of_stored hst hv, runCalls_of_stored hst hv, fun f0 fs => ?_⟩
  have h1 := @runCalls_of_stored T ⟨Status.initialized, some (f0 ())⟩ (f0 ()) rfl rfl fs
  simp [OnceLockS.runCalls, getOrInit_fresh, h1]

/-- Witness for `getOrInit_no_reinvoke` on a cell holding 42. -/
theorem getOrInit_no_reinvoke_witness :
    (∀ f : Unit → Nat,
        (⟨Status.initialized, some 42⟩ : OnceLockS Nat).getOrInit f =
          some (42, ⟨Status.initialized, some 42⟩, false)) ∧
    (∀ fs : List (Unit → Nat),
        (⟨Status.initialized, some 42⟩ : OnceLockS Nat).runCalls fs =
          some (⟨Status.initialized, some 42⟩, 0)) ∧
    (∀ (f0 : Unit → Nat) (fs : List (Unit → Nat)),
        (OnceLockS.new Nat).runCalls (f0 :: fs) =
          some (⟨Status.initialized, some (f0 ())⟩, 1)) :=
  getOrInit_no_reinvoke ⟨Status.initialized, some 42⟩ 42 rfl rfl

/-- Claim C3: `get` returns the stored value exactly when the status word
is `INITIALIZED` and an empty result otherwise; on a fresh cell it is
empty, and after the first completed `get_or_init` it returns the
initialized value. -/
theorem get_iff_stored {T : Type} (c : OnceLockS T) :
    (c.state = Status.initialized → c.get = c.value) ∧
    (c.state ≠ Status.initialized → c.get = none) ∧
    ((OnceLockS.new T).get = none) ∧
    (∀ (f : Unit → T) (v : T) (c' : OnceLockS T) (b : Bool),
      (OnceLockS.new T).getOrInit f = some (v, c', b) → c'.get = some v) := by
  refine ⟨fun h => by simp [OnceLockS.get, h], fun h => by simp [OnceLockS.get, h], rfl,
    fun f v c' b h => ?_⟩
  rw [getOrInit_fresh] at h
  injection h with h
  injection h with h1 h2
  injection h2 with h3 h4
  subst h1; subst h3
  rfl

/-- Witness for `get_iff_stored`: a fresh cell reads empty, an
initialized cell reads its value. -/
theorem get_iff_stored_witness :
    (OnceLockS.new Nat).get = none ∧
    (⟨Status.initialized, some 7⟩ : OnceLockS Nat).get = some 7 :=
  ⟨(get_iff_stored (OnceLockS.new Nat)).2.2.1,
   (get_iff_stored (⟨Status.initialized, some 7⟩ : OnceLockS Nat)).1 rfl⟩

/-- Claim C8: on destruction the contained value is finalized exactly when
the status is `INITIALIZED`; for `EMPTY` or `INITIALIZING` no finalization
of the slot is performed. -/
theorem drop_finalizes_iff {T : Type} (c : OnceLockS T) :
    (c.state = Status.initialized → c.dropFinalized = c.value) ∧
    (c.state = Status.empty → c.dropFinalized = none) ∧
    (c.state = Status.initializing → c.dropFinalized = none) :=
  ⟨fun h => by simp [OnceLockS.dropFinalized, h],
   fun h => by simp [OnceLockS.dropFinalized, h],
   fun h => by simp [OnceLockS.dropFinalized, h]⟩

/-- Witness for `drop_finalizes_iff` in all three states. -/
theorem drop_finalizes_iff_witness :
    (⟨Status.initialized, some 5⟩ : OnceLockS Nat).dropFinalized = some 5 ∧
    (⟨Status.empty, none⟩ : OnceLockS Nat).dropFinalized = none ∧
    (⟨Status.initializing, none⟩ : OnceLockS Nat).dropFinalized = none :=
  ⟨(drop_finalizes_iff ⟨Status.initialized, some 5⟩).1 rfl,
   (drop_finalizes_iff ⟨Status.empty, none⟩).2.1 rfl,
   (drop_finalizes_iff ⟨Status.initializing, none⟩).2.2 rfl⟩

/-- Claim C10: no execution ever reads the storage slot while it is
unwritten. In every reachable interleaved state, any caller about to read
the slot (fast-path read, spin-exit read, or the winner's return read —
which happens only after the winner's own write) finds it written; and
`get` and `Drop` touch the slot only under an `INITIALIZED` status. -/
theorem slot_never_read_unwritten (f : Nat → Nat) (n : Nat) (s : Sys)
    (hr : SysReach f (sysInit n) s) :
    (∀ i : Nat,
        s.callers[i]? = some PC.fastRead ∨ s.callers[i]? = some PC.spinRead ∨
          s.callers[i]? = some PC.winRead →
        s.slot ≠ none) ∧
    (∀ (T : Type) (c : OnceLockS T), c.state ≠ Status.initialized →
        c.get = none ∧ c.dropFinalized = none) := by
  constructor
  · intro i hread
    obtain ⟨hE, hIng, hInd⟩ := sysReach_inv hr
    cases hs : s.status with
    | empty =>
        obtain ⟨-, -, hall⟩ := hE hs
        rcases hread with h | h | h <;> rcases hall i _ h with h' | h' <;> nomatch h'
    | initializing =>
        obtain ⟨w, hwin, hwait⟩ := hIng hs
        by_cases hiw : i = w
        · subst hiw
          rcases hread with h | h | h <;>
            rcases hwin with ⟨hw, -, -⟩ | ⟨hw, -, -⟩ | ⟨hw, -, -⟩ <;>
              exact nomatch lookup_unique h hw
        · rcases hread with h | h | h <;>
            rcases hwait i _ hiw h with h' | h' | h' <;> nomatch h'
    | initialized =>
        obtain ⟨w, -, -, hslot, -⟩ := hInd hs
        rw [hslot]
        exact Option.some_ne_none _
  · intro T c hc
    exact ⟨by simp [OnceLockS.get, hc], by simp [OnceLockS.dropFinalized, hc]⟩

/-- Witness for `slot_never_read_unwritten` at the initial one-caller
state. -/
theorem slot_never_read_unwritten_witness :
    (∀ i : Nat,
        (sysInit 1).callers[i]? = some PC.fastRead ∨
          (sysInit 1).callers[i]? = some PC.spinRead ∨
            (sysInit 1).callers[i]? = some PC.winRead →
        (sysInit 1).slot ≠ none) ∧
    (∀ (T : Type) (c : OnceLockS T), c.state ≠ Status.initialized →
        c.get = none ∧ c.dropFinalized = none) :=
  slot_never_read_unwritten (fun k : Nat => k) 1 (sysInit 1) SysReach.refl

/-- Claim C4: `allocate_queue` pops the oldest pooled instance when the
pool is non-empty, constructs a brand-new instance when the pool is
empty, and in both cases returns successfully — there is no error path. -/
theorem allocate_total_spec (q : List Inst) :
    (∀ x rest, q = x :: rest → allocate_queue q = (x, rest, false)) ∧
    (q = [] → allocate_queue q = (Inst.fallback, [], true)) := by
  constructor
  · rintro x rest rfl
    rfl
  · rintro rfl
    rfl

/-- Witness for `allocate_total_spec`: both the pooled and fallback
paths. -/
theorem allocate_total_spec_witness :
    allocate_queue [Inst.prefilled 0] = (Inst.prefilled 0, [], false) ∧
    allocate_queue [] = (Inst.fallback, [], true) :=
  ⟨(allocate_total_spec [Inst.prefilled 0]).1 (Inst.prefilled 0) [] rfl,
   (allocate_total_spec []).2 rfl⟩

/-- Claim C5: `deallocate_queue` queues the instance when the pool holds
fewer than `cap` instances, finalizes it instead when the pool already
holds `cap`, and consequently no sequence of allocate/deallocate
operations ever grows the pool beyond `cap`. -/
theorem deallocate_capacity_spec (cap : Nat) (q : List Inst) (x : Inst) :
    (q.length < cap → deallocate_queue cap q x = (q ++ [x], true)) ∧
    (q.length = cap → deallocate_queue cap q x = (q, false)) ∧
    (∀ ops : List Op, q.length ≤ cap → (runOps cap q ops).length ≤ cap) :=
  ⟨fun h => by simp [deallocate_queue, queuePush, h],
   fun h => by simp [deallocate_queue, queuePush, h],
   fun ops h => runOps_length_le cap ops q h⟩

/-- Witness for `deallocate_capacity_spec`: a push below capacity, a
finalizing push at capacity, and the capacity invariant on a concrete
operation sequence. -/
theorem deallocate_capacity_spec_witness :
    deallocate_queue 2 [Inst.fallback] (Inst.prefilled 3) =
      ([Inst.fallback, Inst.prefilled 3], true) ∧
    deallocate_queue 1 [Inst.fallback] (Inst.prefilled 3) = ([Inst.fallback], false) ∧
    (runOps 1 [] [Op.dealloc Inst.fallback, Op.dealloc (Inst.prefilled 4)]).length ≤ 1 :=
  ⟨(deallocate_capacity_spec 2 [Inst.fallback] (Inst.prefilled 3)).1 (by decide),
   (deallocate_capacity_spec 1 [Inst.fallback] (Inst.prefilled 3)).2.1 rfl,
   (deallocate_capacity_spec 1 [] Inst.fallback).2.2
     [Op.dealloc Inst.fallback, Op.dealloc (Inst.prefilled 4)] (by decide)⟩

/-- Claim C6: the queue is constructed and pre-filled exactly once,
guarded by the `OnceLock`: the first `get_queue_allocator` call on the
fresh static runs the factory (building the queue and pre-filling it with
`QUEUE_POOL_CAPACITY` instances) and initializes the static; every call
on the initialized static returns the same queue without running the
factory again. -/
theorem queue_built_once :
    (get_queue_allocator QUEUE_ALLOCATOR_start =
        some (prefillQueue QUEUE_POOL_CAPACITY,
          ⟨Status.initialized, some (prefillQueue QUEUE_POOL_CAPACITY)⟩, true)) ∧
    ((prefillQueue QUEUE_POOL_CAPACITY).length = QUEUE_POOL_CAPACITY) ∧
    (∀ (st : OnceLockS (List Inst)) (q : List Inst),
        st.state = Status.initialized → st.value = some q →
        get_queue_allocator st = some (q, st, false)) :=
  ⟨getOrInit_fresh _, prefillQueue_length _,
   fun _ _ hst hv => getOrInit_of_stored hst hv _⟩

/-- Witness for `queue_built_once`: a second call on an initialized
static reuses the stored queue. -/
theorem queue_built_once_witness :
    get_queue_allocator ⟨Status.initialized, some [Inst.fallback]⟩ =
      some ([Inst.fallback], ⟨Status.initialized, some [Inst.fallback]⟩, false) :=
  queue_built_once.2.2 ⟨Status.initialized, some [Inst.fallback]⟩ [Inst.fallback] rfl rfl

/-- Claim C7: starting from the pre-filled pool of capacity `cap`, the
first `cap` consecutive `allocate_queue` calls return the pooled pre-fill
instances with no fresh construction, and the `(cap+1)`-th call falls
back to fresh construction. -/
theorem prefill_then_fallback (cap : Nat) :
    runAllocs (prefillQueue cap) (cap + 1) =
      ((List.range cap).map (fun k => (Inst.prefilled k, false)) ++
        [(Inst.fallback, true)], []) := by
  have h := runAllocs_drain (prefillQueue cap)
  rw [prefillQueue_length] at h
  rw [h, prefillQueue_eq]
  simp [List.map_map, Function.comp]

/-- Claim C9: the pool capacity is the fixed compile-time constant 128;
pre-fill constructs exactly 128 instances, and the pool never retains
more than 128 instances. -/
theorem capacity_is_128 :
    QUEUE_POOL_CAPACITY = 128 ∧
    prefillQueue QUEUE_POOL_CAPACITY = (List.range 128).map Inst.prefilled ∧
    (prefillQueue QUEUE_POOL_CAPACITY).length = 128 ∧
    (∀ (q : List Inst) (ops : List Op), q.length ≤ 128 →
        (runOps QUEUE_POOL_CAPACITY q ops).length ≤ 128) :=
  ⟨rfl, prefillQueue_eq _, prefillQueue_length _,
   fun q ops h => runOps_length_le QUEUE_POOL_CAPACITY ops q h⟩

/-- Witness for `capacity_is_128` on a concrete operation sequence. -/
theorem capacity_is_128_witness :
    QUEUE_POOL_CAPACITY = 128 ∧
    (runOps QUEUE_POOL_CAPACITY [] [Op.dealloc Inst.fallback]).length ≤ 128 :=
  ⟨capacity_is_128.1,
   capacity_is_128.2.2.2 [] [Op.dealloc Inst.fallback] (by decide)⟩

end Xutex
